import Mathlib

/-!
Shallow embedding of the ZephyrCalculator core (src/src/main.c): the
tokenizer, the recursive-descent parser and the tree evaluator.  The UART
line framing, the message queue and the read-eval loop are I/O glue and are
not modelled; the embedding covers `tokenize`, `parse` with its four
sub-parsers, `calculate` and the expression-tree data type.

Conventions of the embedding:
* C strings become `List Char`; the read `tokens[index]` on the
  null-terminated buffer becomes `tokAt`, which yields the NUL character
  at and beyond position `length` (the C buffer holds the terminator at
  `numTokens` and the parser never indexes past it, as proved below).
* The shared mutable cursor `parser->index` becomes an explicit index
  argument; each sub-parser returns the tree together with the new index.
* The four mutually recursive sub-parsers are given a `fuel` argument and
  realised as one step function `parseStepF` over a mode tag, structurally
  recursive on the fuel, so that all definitions compute; sufficiency of
  the fuel `3 * length + 3` is proved, which is exactly the termination
  argument for the C recursion.
* `int` values are modelled as `Int`; C division truncates toward zero,
  which is `Int.div`.  Division by zero is undefined behaviour in C
  (a trap on the reference targets); `calculate` returns `Option Int`
  and models that trap as `none` — the code has no error value of its own.
-/

namespace ZephyrCalc

/-- `MSG_SIZE` from main.c line 15. -/
def MSG_SIZE : Nat := 32

/-- The C NUL character, the terminator of the token buffer. -/
def NUL : Char := Char.ofNat 0

/-- `VALID_TOKENS` from main.c line 87: `"+-*" ++ "/0123456789()"`. -/
def VALID_TOKENS : List Char :=
  ['+', '-', '*', '/', '0', '1', '2', '3', '4', '5', '6', '7', '8', '9', '(', ')']

/-- `tokenize` (main.c lines 158-178): scan the input left to right; a
character of `VALID_TOKENS` is appended to the output, a space or `=` is
skipped, and any other character makes the whole call return NULL
(modelled as `none`) with no output at all. -/
def tokenize : List Char → Option (List Char)
  | [] => some []
  | c :: s =>
    if c ∈ VALID_TOKENS then (tokenize s).map (fun t => c :: t)
    else if c = ' ' ∨ c = '=' then tokenize s
    else none

/-- The `expressionTree` struct (main.c lines 80-85): a number leaf
(`type == 'n'`, both children NULL) or an operator node with two owned
children, as built by `createExpressionTree`. -/
inductive expressionTree where
  | num (val : Int)
  | op (type : Char) (left right : expressionTree)
deriving DecidableEq, Repr

/-- `calculate` (main.c lines 197-214): post-order walk.  A number node
returns its value; an operator node combines the children's values.  The
`'/'` case transcribes the source line 211 `left / right ? right : 0`
literally: C evaluates `left / right` first, which is undefined behaviour
when `right == 0` (modelled as `none`); otherwise the ternary yields
`right` when the truncated quotient is nonzero and `0` when it is zero. -/
def calculate : expressionTree → Option Int
  | .num v => some v
  | .op t l r =>
    match calculate l, calculate r with
    | some left, some right =>
      if t = '+' then some (left + right)
      else if t = '-' then some (left - right)
      else if t = '*' then some (left * right)
      else if t = '/' then
        if right = 0 then none
        else some (if Int.tdiv left right ≠ 0 then right else 0)
      else some 0
    | _, _ => none

/-- The read `parser->tokens[parser->index]`: within bounds the stored
character, at the position `length` (and beyond) the NUL terminator. -/
def tokAt (toks : List Char) (i : Nat) : Char := toks.getD i NUL

/-- The guard of the digit loop in `parseNumber` (main.c line 276):
`strchr("0123456789", c)` is non-NULL exactly for a decimal digit or for
the NUL character (`strchr` also finds the terminator of its subject). -/
def isDigitTok (c : Char) : Bool := c.isDigit || c = NUL

/-- The digit-collecting loop of `parseNumber`, structurally recursive on
a countdown that `numLoop` initialises to `length - i`: the loop guard
contains `i < toks.length`, so the countdown never reaches `0` while the
guard still holds, and at `0` the guard is false and the loop exits with
`(acc, i)` either way. -/
def numLoopGo : Nat → List Char → Nat → Nat → List Char → List Char × Nat
  | 0, _, i, _, acc => (acc, i)
  | n + 1, toks, i, digits, acc =>
    if isDigitTok (tokAt toks i) ∧ digits < MSG_SIZE ∧ i < toks.length then
      numLoopGo n toks (i + 1) (digits + 1) (acc ++ [tokAt toks i])
    else (acc, i)

/-- The digit-collecting loop of `parseNumber` (main.c lines 276-280):
while the current character passes `strchr("0123456789", ·)`, fewer than
`MSG_SIZE` digits have been taken and the index is in bounds, append the
character and advance. -/
def numLoop (toks : List Char) (i digits : Nat) (acc : List Char) :
    List Char × Nat :=
  numLoopGo (toks.length - i) toks i digits acc

/-- C `atoi` restricted to the buffers `parseNumber` builds (digit
characters, possibly empty): the decimal value of the leading digit run,
`0` for the empty string. -/
def atoiDigits : List Char → Nat → Nat
  | [], acc => acc
  | c :: s, acc =>
    if c.isDigit then atoiDigits s (acc * 10 + (c.toNat - '0'.toNat)) else acc

/-- `atoi` on the collected digit buffer. -/
def atoi (s : List Char) : Int := Int.ofNat (atoiDigits s 0)

/-- `parseNumber` (main.c lines 272-289): collect the maximal digit run at
the cursor, convert it with `atoi`, and return a number node; a zero-digit
run yields `atoi("") = 0` with the cursor unmoved. -/
def parseNumber (toks : List Char) (i : Nat) : expressionTree × Nat :=
  let p := numLoop toks i 0 []
  (.num (atoi p.1), p.2)

/-- Mode tag selecting which of the mutually recursive sub-parsers (or
which of their operator-folding while loops, together with the running
left expression) `parseStepF` executes. -/
inductive PMode where
  | addition
  | additionLoop (e : expressionTree)
  | multiplication
  | multiplicationLoop (e : expressionTree)
  | parenthesis

/-- The four mutually recursive sub-parsers of main.c (lines 217-289) as a
single step function, structurally recursive on a fuel argument:
* `addition` (lines 217-231): parse a multiplication, then fold further
  `+`/`-` multiplications in the `additionLoop` mode;
* `additionLoop`: the while loop of `parseAddition` — while the cursor is
  in bounds and holds `+` or `-`, consume the operator, parse the next
  multiplication and fold it into an operator node on the left;
* `multiplication` / `multiplicationLoop` (lines 234-249): the same one
  precedence level higher, over `*` and `/`, recursing into parenthesis;
* `parenthesis` (lines 252-270): on `(` consume it, parse a full addition,
  then consume a `)` only if one is at the cursor; otherwise delegate to
  `parseNumber`.
`none` means the fuel ran out; `parseStepF_total` below shows fuel
`3 * (length - index) + 3` always suffices, which is the termination
argument for the C recursion. -/
def parseStepF : Nat → PMode → List Char → Nat → Option (expressionTree × Nat)
  | 0, _, _, _ => none
  | fuel + 1, mode, toks, i =>
    match mode with
    | .addition =>
      match parseStepF fuel .multiplication toks i with
      | none => none
      | some (e, i1) => parseStepF fuel (.additionLoop e) toks i1
    | .additionLoop e =>
      if i < toks.length ∧ (tokAt toks i = '+' ∨ tokAt toks i = '-') then
        match parseStepF fuel .multiplication toks (i + 1) with
        | none => none
        | some (r, i2) => parseStepF fuel (.additionLoop (.op (tokAt toks i) e r)) toks i2
      else some (e, i)
    | .multiplication =>
      match parseStepF fuel .parenthesis toks i with
      | none => none
      | some (e, i1) => parseStepF fuel (.multiplicationLoop e) toks i1
    | .multiplicationLoop e =>
      if i < toks.length ∧ (tokAt toks i = '*' ∨ tokAt toks i = '/') then
        match parseStepF fuel .parenthesis toks (i + 1) with
        | none => none
        | some (r, i2) => parseStepF fuel (.multiplicationLoop (.op (tokAt toks i) e r)) toks i2
      else some (e, i)
    | .parenthesis =>
      if tokAt toks i = '(' then
        match parseStepF fuel .addition toks (i + 1) with
        | none => none
        | some (e, j) =>
          if tokAt toks j = ')' then some (e, j + 1) else some (e, j)
      else some (parseNumber toks i)

/-- `parseAddition` (main.c lines 217-231), with explicit fuel. -/
def parseAddition (fuel : Nat) (toks : List Char) (i : Nat) :
    Option (expressionTree × Nat) :=
  parseStepF fuel .addition toks i

/-- `parseMultiplication` (main.c lines 234-249), with explicit fuel. -/
def parseMultiplication (fuel : Nat) (toks : List Char) (i : Nat) :
    Option (expressionTree × Nat) :=
  parseStepF fuel .multiplication toks i

/-- `parseParenthesis` (main.c lines 252-270), with explicit fuel. -/
def parseParenthesis (fuel : Nat) (toks : List Char) (i : Nat) :
    Option (expressionTree × Nat) :=
  parseStepF fuel .parenthesis toks i

/-- `parse` (main.c lines 181-195): run `parseAddition` from index `0`
over the whole stream.  The fuel `3 * length + 3` is sufficient
(`parseStepF_total`), so the result is `some` for every stream, matching
the C function, which always returns a tree. -/
def parse (tokens : List Char) : Option (expressionTree × Nat) :=
  parseAddition (3 * tokens.length + 3) tokens 0

/-- One iteration of the main loop (main.c lines 137-148) on a single
line: tokenize, parse, calculate.  `none` is the "invalid input" reply
when `tokenize` fails, and the division-by-zero trap when `calculate`
hits one; the leftover cursor of `parse` is ignored, as in the source. -/
def evalLine (input : List Char) : Option Int :=
  match tokenize input with
  | none => none
  | some toks =>
    match parse toks with
    | none => none
    | some p => calculate p.1

/-- The fuel each `parseStepF` mode needs, as a function of the number of
unconsumed tokens: three units per remaining token plus a constant rank
that orders the sub-parsers by grammar level. -/
def modeFuel : PMode → Nat → Nat
  | .addition, r => 3 * r + 3
  | .additionLoop _, r => 3 * r + 2
  | .multiplication, r => 3 * r + 2
  | .multiplicationLoop _, r => 3 * r + 1
  | .parenthesis, r => 3 * r + 1

theorem lt_of_tokAt_ne_nul {toks : List Char} {i : Nat} (h : tokAt toks i ≠ NUL) :
    i < toks.length := by
  by_contra hc
  exact h (List.getD_eq_default _ _ (by omega))

theorem numLoopGo_bounds : ∀ (n : Nat) (toks : List Char) (i digits : Nat) (acc : List Char),
    i ≤ (numLoopGo n toks i digits acc).2 ∧
      (i ≤ toks.length → (numLoopGo n toks i digits acc).2 ≤ toks.length) := by
  intro n
  induction n with
  | zero => intro toks i digits acc; exact ⟨Nat.le_refl i, fun h => h⟩
  | succ n ih =>
    intro toks i digits acc
    rw [numLoopGo]
    split
    · rename_i hcond
      obtain ⟨h1, h2⟩ := ih toks (i + 1) (digits + 1) (acc ++ [tokAt toks i])
      exact ⟨Nat.le_trans (Nat.le_succ i) h1, fun _ => h2 hcond.2.2⟩
    · exact ⟨Nat.le_refl i, fun h => h⟩

theorem parseNumber_bounds (toks : List Char) (i : Nat) :
    i ≤ (parseNumber toks i).2 ∧
      (i ≤ toks.length → (parseNumber toks i).2 ≤ toks.length) :=
  numLoopGo_bounds (toks.length - i) toks i 0 []

theorem parseStepF_bounds (fuel : Nat) :
    ∀ (mode : PMode) (toks : List Char) (i : Nat) (e : expressionTree) (j : Nat),
      i ≤ toks.length → parseStepF fuel mode toks i = some (e, j) →
      i ≤ j ∧ j ≤ toks.length := by
  induction fuel with
  | zero =>
    intro mode toks i e j hi h
    simp [parseStepF] at h
  | succ fuel ih =>
    intro mode toks i e j hi h
    cases mode with
    | addition =>
      rw [parseStepF] at h
      cases hm : parseStepF fuel .multiplication toks i with
      | none => rw [hm] at h; exact absurd h (by simp)
      | some p =>
        obtain ⟨e1, i1⟩ := p
        rw [hm] at h
        obtain ⟨h1, h2⟩ := ih .multiplication toks i e1 i1 hi hm
        obtain ⟨h3, h4⟩ := ih (.additionLoop e1) toks i1 e j h2 h
        exact ⟨Nat.le_trans h1 h3, h4⟩
    | additionLoop e0 =>
      rw [parseStepF] at h
      split at h
      · rename_i hcond
        cases hm : parseStepF fuel .multiplication toks (i + 1) with
        | none => rw [hm] at h; exact absurd h (by simp)
        | some p =>
          obtain ⟨r1, i2⟩ := p
          rw [hm] at h
          obtain ⟨h1, h2⟩ := ih .multiplication toks (i + 1) r1 i2 hcond.1 hm
          obtain ⟨h3, h4⟩ := ih (.additionLoop _) toks i2 e j h2 h
          exact ⟨by omega, h4⟩
      · obtain ⟨rfl, rfl⟩ : e0 = e ∧ i = j := by
          simpa using h
        exact ⟨Nat.le_refl _, hi⟩
    | multiplication =>
      rw [parseStepF] at h
      cases hm : parseStepF fuel .parenthesis toks i with
      | none => rw [hm] at h; exact absurd h (by simp)
      | some p =>
        obtain ⟨e1, i1⟩ := p
        rw [hm] at h
        obtain ⟨h1, h2⟩ := ih .parenthesis toks i e1 i1 hi hm
        obtain ⟨h3, h4⟩ := ih (.multiplicationLoop e1) toks i1 e j h2 h
        exact ⟨Nat.le_trans h1 h3, h4⟩
    | multiplicationLoop e0 =>
      rw [parseStepF] at h
      split at h
      · rename_i hcond
        cases hm : parseStepF fuel .parenthesis toks (i + 1) with
        | none => rw [hm] at h; exact absurd h (by simp)
        | some p =>
          obtain ⟨r1, i2⟩ := p
          rw [hm] at h
          obtain ⟨h1, h2⟩ := ih .parenthesis toks (i + 1) r1 i2 hcond.1 hm
          obtain ⟨h3, h4⟩ := ih (.multiplicationLoop _) toks i2 e j h2 h
          exact ⟨by omega, h4⟩
      · obtain ⟨rfl, rfl⟩ : e0 = e ∧ i = j := by
          simpa using h
        exact ⟨Nat.le_refl _, hi⟩
    | parenthesis =>
      rw [parseStepF] at h
      split at h
      · rename_i hparen
        have hlt : i < toks.length :=
          lt_of_tokAt_ne_nul (by rw [hparen]; decide)
        cases hm : parseStepF fuel .addition toks (i + 1) with
        | none => rw [hm] at h; exact absurd h (by simp)
        | some p =>
          obtain ⟨e1, j1⟩ := p
          rw [hm] at h
          obtain ⟨h1, h2⟩ := ih .addition toks (i + 1) e1 j1 hlt hm
          have h' : (if tokAt toks j1 = ')' then some (e1, j1 + 1)
              else some (e1, j1)) = some (e, j) := h
          split at h'
          · rename_i hclose
            have hj1 : j1 < toks.length :=
              lt_of_tokAt_ne_nul (by rw [hclose]; decide)
            obtain ⟨rfl, rfl⟩ : e1 = e ∧ j1 + 1 = j := by
              simpa using h'
            exact ⟨by omega, by omega⟩
          · obtain ⟨rfl, rfl⟩ : e1 = e ∧ j1 = j := by
              simpa using h'
            exact ⟨by omega, h2⟩
      · obtain ⟨he, hj⟩ : expressionTree.num (atoi (numLoop toks i 0 []).1) = e ∧
            (numLoop toks i 0 []).2 = j := by
          simpa [parseNumber] using h
        obtain ⟨h1, h2⟩ := parseNumber_bounds toks i
        rw [parseNumber] at h1 h2
        exact ⟨hj ▸ h1, hj ▸ h2 hi⟩

theorem parseStepF_total (fuel : Nat) :
    ∀ (mode : PMode) (toks : List Char) (i : Nat),
      i ≤ toks.length → modeFuel mode (toks.length - i) ≤ fuel →
      (parseStepF fuel mode toks i).isSome := by
  induction fuel with
  | zero =>
    intro mode toks i hi hf
    cases mode <;> simp [modeFuel] at hf
  | succ fuel ih =>
    intro mode toks i hi hf
    cases mode with
    | addition =>
      have hm := ih .multiplication toks i hi
        (by simp only [modeFuel] at hf ⊢; omega)
      obtain ⟨⟨e1, i1⟩, hm⟩ := Option.isSome_iff_exists.mp hm
      obtain ⟨h1, h2⟩ := parseStepF_bounds fuel .multiplication toks i e1 i1 hi hm
      have hl := ih (.additionLoop e1) toks i1 h2
        (by simp only [modeFuel] at hf ⊢; omega)
      rw [parseStepF, hm]
      exact hl
    | additionLoop e0 =>
      rw [parseStepF]
      split
      · rename_i hcond
        have hlt : i + 1 ≤ toks.length := hcond.1
        have hm := ih .multiplication toks (i + 1) hlt
          (by simp only [modeFuel] at hf ⊢; omega)
        obtain ⟨⟨r1, i2⟩, hm⟩ := Option.isSome_iff_exists.mp hm
        obtain ⟨h1, h2⟩ := parseStepF_bounds fuel .multiplication toks (i + 1) r1 i2 hlt hm
        have hl := ih (.additionLoop (.op (tokAt toks i) e0 r1)) toks i2 h2
          (by simp only [modeFuel] at hf ⊢; omega)
        rw [hm]
        exact hl
      · simp
    | multiplication =>
      have hm := ih .parenthesis toks i hi
        (by simp only [modeFuel] at hf ⊢; omega)
      obtain ⟨⟨e1, i1⟩, hm⟩ := Option.isSome_iff_exists.mp hm
      obtain ⟨h1, h2⟩ := parseStepF_bounds fuel .parenthesis toks i e1 i1 hi hm
      have hl := ih (.multiplicationLoop e1) toks i1 h2
        (by simp only [modeFuel] at hf ⊢; omega)
      rw [parseStepF, hm]
      exact hl
    | multiplicationLoop e0 =>
      rw [parseStepF]
      split
      · rename_i hcond
        have hlt : i + 1 ≤ toks.length := hcond.1
        have hm := ih .parenthesis toks (i + 1) hlt
          (by simp only [modeFuel] at hf ⊢; omega)
        obtain ⟨⟨r1, i2⟩, hm⟩ := Option.isSome_iff_exists.mp hm
        obtain ⟨h1, h2⟩ := parseStepF_bounds fuel .parenthesis toks (i + 1) r1 i2 hlt hm
        have hl := ih (.multiplicationLoop (.op (tokAt toks i) e0 r1)) toks i2 h2
          (by simp only [modeFuel] at hf ⊢; omega)
        rw [hm]
        exact hl
      · simp
    | parenthesis =>
      by_cases hparen : tokAt toks i = '('
      · have hlt : i < toks.length := lt_of_tokAt_ne_nul (by rw [hparen]; decide)
        have hm := ih .addition toks (i + 1) hlt
          (by simp only [modeFuel] at hf ⊢; omega)
        obtain ⟨⟨e1, j1⟩, hm⟩ := Option.isSome_iff_exists.mp hm
        have hstep : parseStepF (fuel + 1) .parenthesis toks i =
            if tokAt toks j1 = ')' then some (e1, j1 + 1) else some (e1, j1) := by
          rw [parseStepF, if_pos hparen, hm]
        rw [hstep]
        split <;> simp
      · rw [parseStepF, if_neg hparen]
        simp

theorem tokenize_valid_fixed :
    ∀ s : List Char, (∀ c ∈ s, c ∈ VALID_TOKENS) → tokenize s = some s := by
  intro s
  induction s with
  | nil => intro _; rfl
  | cons c s ih =>
    intro h
    have hc : c ∈ VALID_TOKENS := h c (List.mem_cons_self c s)
    have hs := ih (fun c' hc' => h c' (List.mem_cons_of_mem c hc'))
    simp [tokenize, hc, hs]

theorem tokenize_output_valid :
    ∀ s t : List Char, tokenize s = some t → ∀ c ∈ t, c ∈ VALID_TOKENS := by
  intro s
  induction s with
  | nil =>
    intro t h
    simp only [tokenize, Option.some.injEq] at h
    subst h
    intro c hc
    exact absurd hc (List.not_mem_nil c)
  | cons c s ih =>
    intro t h
    by_cases h1 : c ∈ VALID_TOKENS
    · simp only [tokenize, if_pos h1] at h
      obtain ⟨t', ht', hft⟩ := Option.map_eq_some'.mp h
      subst hft
      intro c' hc'
      rcases List.mem_cons.mp hc' with rfl | hc'
      · exact h1
      · exact ih t' ht' c' hc'
    · by_cases h2 : c = ' ' ∨ c = '='
      · simp only [tokenize, if_neg h1, if_pos h2] at h
        exact ih t h
      · simp only [tokenize, if_neg h1, if_neg h2] at h
        exact absurd h (by simp)

/-- C1: the claim says a zero denominator is reported as a
`DivisionByZero` error.  In the code there is no error value at all:
`calculate` reaches `left / right` (main.c line 211) with `right == 0`,
which is the undefined-behaviour trap the embedding renders as `none` —
the input `"5 / 0"` tokenizes and parses fine, and evaluation hits the
unchecked division. -/
theorem division_by_zero_is_trap :
    evalLine "5 / 0".toList = none ∧
    tokenize "5 / 0".toList = some "5/0".toList ∧
    parse "5/0".toList = some (.op '/' (.num 5) (.num 0), 3) ∧
    calculate (.op '/' (.num 5) (.num 0)) = none := by decide

/-- C2: the claim says `"7/2"` evaluates to the truncated quotient `3`.
The code's `left / right ? right : 0` (main.c line 211) instead returns
the right operand whenever the quotient is nonzero: the pipeline yields
`2`, not `3`, although the truncated quotient `Int.tdiv 7 2` is `3`. -/
theorem division_returns_right_operand :
    evalLine "7/2".toList = some 2 ∧
    evalLine "7/2".toList ≠ some 3 ∧
    parse "7/2".toList = some (.op '/' (.num 7) (.num 2), 3) ∧
    calculate (.op '/' (.num 7) (.num 2)) = some 2 ∧
    Int.tdiv 7 2 = 3 := by decide

/-- C3: tokenization succeeds exactly when every character of the input
is a valid token (digit, operator, parenthesis), a space or `=`; any
other character anywhere makes `tokenize` return NULL (`none`), so no
token stream at all is produced. -/
theorem tokenize_alphabet (s : List Char) :
    tokenize s ≠ none ↔ ∀ c ∈ s, c ∈ VALID_TOKENS ∨ c = ' ' ∨ c = '=' := by
  induction s with
  | nil => simp [tokenize]
  | cons c s ih =>
    by_cases h1 : c ∈ VALID_TOKENS
    · rw [show tokenize (c :: s) = (tokenize s).map (fun t => c :: t) from by
        simp [tokenize, h1]]
      simp only [Ne, Option.map_eq_none', List.forall_mem_cons]
      constructor
      · intro h
        exact ⟨Or.inl h1, ih.mp h⟩
      · intro h
        exact ih.mpr h.2
    · by_cases h2 : c = ' ' ∨ c = '='
      · rw [show tokenize (c :: s) = tokenize s from by simp [tokenize, h1, h2]]
        constructor
        · intro h
          exact List.forall_mem_cons.mpr ⟨Or.inr h2, ih.mp h⟩
        · intro h
          exact ih.mpr (List.forall_mem_cons.mp h).2
      · have ht : tokenize (c :: s) = none := by simp [tokenize, h1, h2]
        constructor
        · intro h
          exact absurd ht h
        · intro hall
          rcases hall c (List.mem_cons_self c s) with h | h
          · exact absurd h h1
          · exact absurd h h2

/-- C4: multiplication binds tighter than addition: `"2 + 6 * 6 ="`
tokenizes to `"2+6*6"`, parses with the `*` node below the `+` node, and
evaluates to `38`. -/
theorem precedence_mul_binds_tighter :
    tokenize "2 + 6 * 6 =".toList = some "2+6*6".toList ∧
    parse "2+6*6".toList = some (.op '+' (.num 2) (.op '*' (.num 6) (.num 6)), 5) ∧
    evalLine "2 + 6 * 6 =".toList = some 38 := by decide

/-- C5: same-precedence operators are left-associative: `"1-2-3"` parses
as `(1-2)-3` — the addition loop folds each new term into an operator
node whose left child is the running result — and evaluates to `-4`. -/
theorem subtraction_left_associative :
    parse "1-2-3".toList = some (.op '-' (.op '-' (.num 1) (.num 2)) (.num 3), 5) ∧
    evalLine "1-2-3".toList = some (-4) := by decide

/-- C6: parse-cursor invariant: started at any index in `[0, length]`,
each of the four sub-parsers returns an index in `[0, length]` that is
not below the starting index; since every recursive call starts where an
enclosing call's sub-step left off, the cursor never decreases and stays
in range throughout the whole parse. -/
theorem parse_cursor_invariant (fuel : Nat) (toks : List Char) (i : Nat)
    (hi : i ≤ toks.length) :
    (∀ e j, parseAddition fuel toks i = some (e, j) → i ≤ j ∧ j ≤ toks.length) ∧
    (∀ e j, parseMultiplication fuel toks i = some (e, j) → i ≤ j ∧ j ≤ toks.length) ∧
    (∀ e j, parseParenthesis fuel toks i = some (e, j) → i ≤ j ∧ j ≤ toks.length) ∧
    (i ≤ (parseNumber toks i).2 ∧ (parseNumber toks i).2 ≤ toks.length) :=
  ⟨fun e j h => parseStepF_bounds fuel .addition toks i e j hi h,
   fun e j h => parseStepF_bounds fuel .multiplication toks i e j hi h,
   fun e j h => parseStepF_bounds fuel .parenthesis toks i e j hi h,
   (parseNumber_bounds toks i).1, (parseNumber_bounds toks i).2 hi⟩

theorem parse_cursor_invariant_witness :
    (0 : Nat) ≤ 3 ∧ 3 ≤ ("1+2".toList).length :=
  (parse_cursor_invariant 20 "1+2".toList 0 (by decide)).1
    (.op '+' (.num 1) (.num 2)) 3 (by decide)

/-- C7: parsing terminates on every finite token stream: fuel
`3 * length + 3` — three recursion steps per token plus the constant
depth of the grammar — always suffices, so the mutual recursion of the C
parser is bounded and `parse` returns a tree for every stream
(evaluation, a structural walk of that finite tree, then terminates as
well). -/
theorem parser_terminates (toks : List Char) (fuel : Nat)
    (hfuel : 3 * toks.length + 3 ≤ fuel) :
    (∃ e j, parseAddition fuel toks 0 = some (e, j)) ∧
    ∃ p, parse toks = some p := by
  have h1 := parseStepF_total fuel .addition toks 0 (Nat.zero_le _)
    (by simp only [modeFuel]; omega)
  have h2 := parseStepF_total (3 * toks.length + 3) .addition toks 0 (Nat.zero_le _)
    (by simp only [modeFuel]; omega)
  obtain ⟨⟨e, j⟩, h1⟩ := Option.isSome_iff_exists.mp h1
  obtain ⟨p, h2⟩ := Option.isSome_iff_exists.mp h2
  exact ⟨⟨e, j, h1⟩, p, h2⟩

theorem parser_terminates_witness :
    3 * ("1+1".toList).length + 3 ≤ 12 ∧
    ((∃ e j, parseAddition 12 "1+1".toList 0 = some (e, j)) ∧
      ∃ p, parse "1+1".toList = some p) :=
  ⟨by decide, parser_terminates "1+1".toList 12 (by decide)⟩

/-- C8: an unmatched opening parenthesis is tolerated: on any stream with
a `(` and no `)` the parser still returns a tree, and in general the
parenthesis sub-parser, after consuming `(` and a full addition
expression, consumes a `)` only when one sits at the cursor and otherwise
returns with the cursor untouched. -/
theorem unmatched_paren_tolerated :
    (∀ toks : List Char, '(' ∈ toks → ')' ∉ toks →
      ∃ e j, parse toks = some (e, j) ∧ j ≤ toks.length) ∧
    (∀ fuel toks i e j, tokAt toks i = '(' →
      parseAddition fuel toks (i + 1) = some (e, j) → tokAt toks j ≠ ')' →
      parseParenthesis (fuel + 1) toks i = some (e, j)) := by
  constructor
  · intro toks _hopen _hclose
    have h := parseStepF_total (3 * toks.length + 3) .addition toks 0 (Nat.zero_le _)
      (by simp only [modeFuel]; omega)
    obtain ⟨⟨e, j⟩, h⟩ := Option.isSome_iff_exists.mp h
    have hb := parseStepF_bounds _ .addition toks 0 e j (Nat.zero_le _) h
    exact ⟨e, j, h, hb.2⟩
  · intro fuel toks i e j hparen hadd hnc
    show parseStepF (fuel + 1) .parenthesis toks i = some (e, j)
    rw [parseStepF, if_pos hparen]
    have hadd' : parseStepF fuel .addition toks (i + 1) = some (e, j) := hadd
    rw [hadd']
    show (if tokAt toks j = ')' then some (e, j + 1) else some (e, j)) = some (e, j)
    rw [if_neg hnc]

theorem unmatched_paren_witness :
    ∃ e j, parse "(1+2".toList = some (e, j) ∧ j ≤ ("(1+2".toList).length :=
  unmatched_paren_tolerated.1 "(1+2".toList (by decide) (by decide)

/-- C9: tokenization is idempotent on its own outputs: a string made only
of valid-alphabet characters (which excludes whitespace and `=`) is
returned unchanged, and since every successful output consists only of
such characters, re-tokenizing any output reproduces it. -/
theorem tokenize_idempotent :
    (∀ s : List Char, (∀ c ∈ s, c ∈ VALID_TOKENS) → tokenize s = some s) ∧
    (∀ s t : List Char, tokenize s = some t → tokenize t = some t) :=
  ⟨tokenize_valid_fixed,
   fun s t h => tokenize_valid_fixed t (tokenize_output_valid s t h)⟩

theorem tokenize_idempotent_witness :
    tokenize "12+(3)".toList = some "12+(3)".toList :=
  tokenize_idempotent.1 "12+(3)".toList (by decide)

/-- C10: a number parse that can consume zero digits (the cursor is at a
non-digit or past the end) does not fail: `atoi` on the empty digit
buffer yields `0` and `parseNumber` returns a number node of value `0`
with the cursor unmoved; in particular the empty token stream parses to
that node and evaluates to `0`. -/
theorem parseNumber_empty_run :
    (∀ (toks : List Char) (i : Nat),
      isDigitTok (tokAt toks i) = false ∨ toks.length ≤ i →
      parseNumber toks i = (.num 0, i)) ∧
    parse [] = some (.num 0, 0) ∧ evalLine [] = some 0 := by
  refine ⟨?_, by decide, by decide⟩
  intro toks i h
  have hnl : numLoop toks i 0 [] = ([], i) := by
    rcases h with h | h
    · rw [numLoop]
      cases hn : toks.length - i with
      | zero => rw [numLoopGo]
      | succ n =>
        rw [numLoopGo, if_neg]
        intro hc
        rw [h] at hc
        exact absurd hc.1 (by simp)
    · rw [numLoop]
      have h0 : toks.length - i = 0 := by omega
      rw [h0, numLoopGo]
  simp [parseNumber, hnl, atoi, atoiDigits]

theorem parseNumber_empty_run_witness :
    parseNumber "+3".toList 0 = (.num 0, 0) :=
  parseNumber_empty_run.1 "+3".toList 0 (Or.inl (by decide))

end ZephyrCalc
